import Mathlib

/-!
Verification of the table-reshaping semantics (melt, wide-to-long, stack,
unstack, pivot) described by the design document of this repository.  The
repository itself is a notebook whose cells are one-line calls into a
pre-built table library; the reshaping operations are therefore modelled
here from the specification's own operation descriptions (section 4 of the
design document) over an explicit table data model, and the documented
properties are proved about that model.
-/

namespace TidyData

/-- A cell value: numeric, text, or the explicit missing marker.  The
specification's "temporal" values behave like any other scalar for
reshaping and are subsumed by the other constructors. -/
inductive Val where
  | int : Int → Val
  | str : String → Val
  | missing : Val
deriving DecidableEq

/-- The error kinds of the specification's error-handling design. -/
inductive Err where
  | invalidColumnReference : Err
  | unmatchedStub : Err
  | duplicateKey : Err
deriving DecidableEq

/-- Modelled from the spec: a Table is an ordered sequence of named columns,
all of equal length, here represented as the column-name list plus the
row-major cell lists. -/
structure Table where
  cols : List String
  rows : List (List Val)
deriving DecidableEq

/-- Shape invariants of a table: column names are unique within a table and
every row has one cell per column. -/
def Table.wf (t : Table) : Prop :=
  t.cols.Nodup ∧ ∀ r ∈ t.rows, r.length = t.cols.length

instance (t : Table) : Decidable t.wf := by
  unfold Table.wf; infer_instance

/-- Index of the first occurrence of an element in a list. -/
def firstIdx {α : Type} [DecidableEq α] : List α → α → Option Nat
  | [], _ => none
  | b :: l, a => if b = a then some 0 else (firstIdx l a).map (· + 1)

/-- The cell of row `r` (a row of table `t`) at the column named `c`;
the missing marker if the column does not exist. -/
def cellAt (t : Table) (r : List Val) (c : String) : Val :=
  match firstIdx t.cols c with
  | some i => r.getD i Val.missing
  | none => Val.missing

/-- The distinct values of a list, keeping the first occurrence of each
value, in order of first appearance.  Used to build the key sets of
pivot and unstack. -/
def distinctFirst {α : Type} [DecidableEq α] : List α → List α
  | [] => []
  | a :: l => a :: (distinctFirst l).filter (fun b => decide (¬ b = a))

/-- The cells of table `t` listed row-major, restricted to the columns
named in `cs` (a column may be listed more than once, and each listing
contributes its cells once). -/
def rowMajorCells (t : Table) (cs : List String) : List Val :=
  t.rows.flatMap (fun r => cs.map (fun c => cellAt t r c))

/-- The non-missing values of a list of cells, in order. -/
def nonMissing (l : List Val) : List Val :=
  l.filter (fun v => decide (¬ v = Val.missing))

/-- Modelled from the spec (the notebook calls the library's `melt`, whose
implementation is not part of the repository): the rows of melt, grouped
by value column — for each value column `c` in order, one row per
original row `r`, holding the id-column cells of `r`, the column name
`c` as a text value, and `r`'s cell at `c`. -/
def meltRows (t : Table) (ids vals : List String) : List (List Val) :=
  vals.flatMap (fun c =>
    t.rows.map (fun r =>
      ids.map (fun i => cellAt t r i) ++ [Val.str c, cellAt t r c]))

/-- Modelled from the spec: `melt` returns a new table with columns
`ids ++ [varName, valName]` and rows `meltRows`; it fails with
`InvalidColumnReference` if any named column does not exist. -/
def melt (t : Table) (ids vals : List String) (varName valName : String) :
    Except Err Table :=
  if ∀ c ∈ ids ++ vals, c ∈ t.cols then
    Except.ok ⟨ids ++ [varName, valName], meltRows t ids vals⟩
  else Except.error Err.invalidColumnReference

/-- Strip stub `s` from column name `n`: when `s` is a proper leading
pattern of `n`, return the remaining suffix. -/
def stripStub (s n : String) : Option String :=
  if s.data = n.data.take s.data.length ∧ s.data.length < n.data.length then
    some (String.mk (n.data.drop s.data.length))
  else none

/-- Modelled from the spec: the suffix values of wide-to-long are inferred
from the column names by stripping each stub prefix, deduplicated in
order of first appearance. -/
def inferSuffixes (t : Table) (stubs : List String) : List String :=
  distinctFirst (t.cols.flatMap (fun n => stubs.filterMap (fun s => stripStub s n)))

/-- Modelled from the spec: the rows of wide-to-long — one output row per
original row and suffix, holding the id cell, the suffix label, and one
cell per stub taken from the column `stub ++ suffix`. -/
def w2lRows (t : Table) (stubs : List String) (idc : String) : List (List Val) :=
  t.rows.flatMap (fun r =>
    (inferSuffixes t stubs).map (fun suf =>
      cellAt t r idc :: Val.str suf :: stubs.map (fun s => cellAt t r (s ++ suf))))

/-- Modelled from the spec: `wideToLong` keeps only the id column, a new
suffix-label column, and one column per stub; every other input column
is dropped.  It fails with `UnmatchedStubError` when a stub+suffix
combination has no corresponding column (no fill policy is modelled),
and with `InvalidColumnReference` when the id column is absent. -/
def wideToLong (t : Table) (stubs : List String) (idc jname : String) :
    Except Err Table :=
  if idc ∈ t.cols then
    if ∀ s ∈ stubs, ∀ suf ∈ inferSuffixes t stubs, (s ++ suf) ∈ t.cols then
      Except.ok ⟨idc :: jname :: stubs, w2lRows t stubs idc⟩
    else Except.error Err.unmatchedStub
  else Except.error Err.invalidColumnReference

/-- The wide result of a pivot: rows keyed by the distinct values of the
index column, columns keyed by the distinct values of the columns
column, and a grid of cells. -/
structure PTable where
  index : List Val
  cols : List Val
  values : List (List Val)
deriving DecidableEq

/-- The key/value triples a pivot reads off the input: one entry per input
row, keyed by its (index-column, columns-column) pair, carrying its
values-column cell. -/
def pivotEntries (t : Table) (ic cc vc : String) : List ((Val × Val) × Val) :=
  t.rows.map (fun r => ((cellAt t r ic, cellAt t r cc), cellAt t r vc))

/-- Look up the value stored under a composite key among key/value entries;
the missing marker when no entry matches. -/
def gridCell {κ₁ κ₂ : Type} [DecidableEq κ₁] [DecidableEq κ₂]
    (entries : List ((κ₁ × κ₂) × Val)) (k : κ₁ × κ₂) : Val :=
  match entries.find? (fun e => decide (e.1 = k)) with
  | some e => e.2
  | none => Val.missing

/-- Fill the output grid: one row per row key, one cell per column key,
each cell looked up among the entries (missing marker when absent). -/
def mkGrid {κ₁ κ₂ : Type} [DecidableEq κ₁] [DecidableEq κ₂]
    (entries : List ((κ₁ × κ₂) × Val)) (rks : List κ₁) (cks : List κ₂) :
    List (List Val) :=
  rks.map (fun a => cks.map (fun b => gridCell entries (a, b)))

/-- Modelled from the spec: `pivot` produces a wide table keyed by the
distinct values of the index and columns columns; it fails with
`DuplicateKeyError` when some (index, columns) pair occurs in more than
one input row, performing no aggregation, and fills cells with no
matching input row with the missing marker. -/
def pivot (t : Table) (ic cc vc : String) : Except Err PTable :=
  if ic ∈ t.cols ∧ cc ∈ t.cols ∧ vc ∈ t.cols then
    if ((pivotEntries t ic cc vc).map (fun e => e.1)).Nodup then
      Except.ok
        ⟨distinctFirst ((pivotEntries t ic cc vc).map (fun e => e.1.1)),
         distinctFirst ((pivotEntries t ic cc vc).map (fun e => e.1.2)),
         mkGrid (pivotEntries t ic cc vc)
           (distinctFirst ((pivotEntries t ic cc vc).map (fun e => e.1.1)))
           (distinctFirst ((pivotEntries t ic cc vc).map (fun e => e.1.2)))⟩
    else Except.error Err.duplicateKey
  else Except.error Err.invalidColumnReference

/-- The cell of a pivoted table at a given (row key, column key) address;
the missing marker when either key is absent. -/
def pcell (p : PTable) (rk ck : Val) : Val :=
  match firstIdx p.index rk, firstIdx p.cols ck with
  | some i, some j => (p.values.getD i []).getD j Val.missing
  | _, _ => Val.missing

/-- Modelled from the spec: a table with a hierarchical row index (every
row labelled by a tuple of `rowLevels` named levels) and a single-level
column axis, as in the notebook's stack/unstack examples. -/
structure HTable where
  rowLevels : Nat
  rowIndex : List (List String)
  cols : List String
  values : List (List Val)
deriving DecidableEq

/-- Shape invariants of a hierarchical table: distinct row labels, distinct
column names, one value row per row label, row labels of uniform depth
and value rows of uniform width. -/
def HTable.wf (t : HTable) : Prop :=
  t.rowIndex.Nodup ∧ t.cols.Nodup ∧ t.values.length = t.rowIndex.length ∧
    (∀ ix ∈ t.rowIndex, ix.length = t.rowLevels) ∧
    (∀ row ∈ t.values, row.length = t.cols.length)

instance (t : HTable) : Decidable t.wf := by
  unfold HTable.wf; infer_instance

/-- A hierarchical table with no missing cells. -/
def HTable.noMissing (t : HTable) : Prop :=
  ∀ row ∈ t.values, ∀ v ∈ row, v ≠ Val.missing

instance (t : HTable) : Decidable t.noMissing := by
  unfold HTable.noMissing; infer_instance

/-- The result of a stack: a one-dimensional sequence of values indexed by
enlarged row-label tuples (no column axis is left). -/
structure Stacked where
  levels : Nat
  entries : List (List String × Val)
deriving DecidableEq

/-- Modelled from the spec: `stack` moves the (single, hence innermost)
column level into an additional innermost row-index level, producing one
entry per (row, column) pair; entries whose value is missing are dropped
when `dropna` is set (the spec's default policy). -/
def stack (t : HTable) (dropna : Bool) : Stacked :=
  ⟨t.rowLevels + 1,
   (t.rowIndex.zip t.values).flatMap (fun p =>
     (t.cols.zip p.2).filterMap (fun q =>
       if dropna = true ∧ q.2 = Val.missing then none
       else some (p.1 ++ [q.1], q.2)))⟩

/-- The key/value entries an unstack at level `L` reads off: each stacked
entry keyed by (key tuple with level `L` removed, label at level `L`). -/
def unstackEntries (s : Stacked) (L : Nat) : List ((List String × String) × Val) :=
  s.entries.map (fun e => ((e.1.eraseIdx L, e.1.getD L ""), e.2))

/-- Modelled from the spec: `unstack` moves row-index level `L` to the
column axis.  It fails with `DuplicateKeyError` when, after removing the
chosen level, two entries collide on (remaining key, new column);
otherwise the grid is filled by key lookup, with the missing marker at
absent combinations. -/
def unstack (s : Stacked) (L : Nat) : Except Err HTable :=
  if ((unstackEntries s L).map (fun e => e.1)).Nodup then
    Except.ok
      ⟨s.levels - 1,
       distinctFirst ((unstackEntries s L).map (fun e => e.1.1)),
       distinctFirst ((unstackEntries s L).map (fun e => e.1.2)),
       mkGrid (unstackEntries s L)
         (distinctFirst ((unstackEntries s L).map (fun e => e.1.1)))
         (distinctFirst ((unstackEntries s L).map (fun e => e.1.2)))⟩
  else Except.error Err.duplicateKey

/-- `unstack` with its default level: the innermost row-index level. -/
def unstackDefault (s : Stacked) : Except Err HTable :=
  unstack s (s.levels - 1)

/-- Modelled from the spec: tables are immutable value objects, so a melt
call yields the freshly constructed result together with the input table
exactly as it can be observed after the call. -/
def meltCall (t : Table) (ids vals : List String) (vn wn : String) :
    Except Err Table × Table :=
  (melt t ids vals vn wn, t)

/-- Modelled from the spec: wide-to-long mutates nothing; the second
component is the input table as observed after the call. -/
def wideToLongCall (t : Table) (stubs : List String) (idc jname : String) :
    Except Err Table × Table :=
  (wideToLong t stubs idc jname, t)

/-- Modelled from the spec: stack mutates nothing; the second component is
the input table as observed after the call. -/
def stackCall (t : HTable) (dropna : Bool) : Stacked × HTable :=
  (stack t dropna, t)

/-- Modelled from the spec: unstack mutates nothing; the second component
is the input as observed after the call. -/
def unstackCall (s : Stacked) (L : Nat) : Except Err HTable × Stacked :=
  (unstack s L, s)

/-- Modelled from the spec: pivot mutates nothing; the second component is
the input table as observed after the call. -/
def pivotCall (t : Table) (ic cc vc : String) : Except Err PTable × Table :=
  (pivot t ic cc vc, t)

/-- A concrete wide table used by several witnesses: an id column and two
measurement columns over two rows. -/
def exWide : Table :=
  ⟨["id", "h", "w"],
   [[Val.int 1, Val.int 10, Val.int 20],
    [Val.int 2, Val.int 11, Val.int 21]]⟩

/-- The specification's duplicate-key example: the (index, col) pair (1, A)
occurs in two rows with different values. -/
def exDup : Table :=
  ⟨["index", "col", "val"],
   [[Val.int 1, Val.str "A", Val.int 5],
    [Val.int 1, Val.str "A", Val.int 7]]⟩

/-- A long table in which the combination (index 1, col B) is absent. -/
def exSparse : Table :=
  ⟨["index", "col", "val"],
   [[Val.int 1, Val.str "A", Val.int 5],
    [Val.int 2, Val.str "B", Val.int 6]]⟩

/-- The wide-to-long example input of the specification: stub families A
and B over suffixes 1970/1980, a non-matching column X, and an id. -/
def exW2L : Table :=
  ⟨["A1970", "A1980", "B1970", "B1980", "X", "id"],
   [[Val.str "a", Val.str "d", Val.int 25, Val.int 32, Val.int 7, Val.int 0],
    [Val.str "b", Val.str "e", Val.int 12, Val.int 13, Val.int 8, Val.int 1],
    [Val.str "c", Val.str "f", Val.int 7, Val.int 1, Val.int 9, Val.int 2]]⟩

/-- A concrete hierarchical table with a one-level row index and two
columns, with no missing cells. -/
def exH : HTable :=
  ⟨1, [["r1"], ["r2"]], ["A", "B"],
   [[Val.int 1, Val.int 2], [Val.int 3, Val.int 4]]⟩

/-- A hierarchical table with a column but no rows: stacking it yields no
entries, so no reshaping can recover its column names. -/
def exNoRows : HTable := ⟨1, [], ["a"], []⟩

/-- A one-row, one-id, one-value table used to refute the literal reading
of the value-preservation claim for melt. -/
def exTiny : Table := ⟨["i", "v"], [[Val.int 1, Val.int 5]]⟩

/-! ### Generic list lemmas -/

theorem length_flatMap_const {α β : Type} (l : List α) (f : α → List β) (n : Nat)
    (h : ∀ a ∈ l, (f a).length = n) : (l.flatMap f).length = l.length * n := by
  induction l with
  | nil => simp
  | cons a l ih =>
    simp only [List.flatMap_cons, List.length_append, List.length_cons]
    rw [h a (List.mem_cons_self a l), ih (fun b hb => h b (List.mem_cons_of_mem a hb)),
      Nat.succ_mul, Nat.add_comm]

theorem firstIdx_spec {α : Type} [DecidableEq α] {l : List α} {a : α} {i : Nat}
    (h : firstIdx l a = some i) : ∃ hi : i < l.length, l.get ⟨i, hi⟩ = a := by
  induction l generalizing i with
  | nil => simp [firstIdx] at h
  | cons b l ih =>
    rw [firstIdx] at h
    by_cases hb : b = a
    · rw [if_pos hb] at h
      cases h
      exact ⟨Nat.succ_pos _, hb⟩
    · rw [if_neg hb] at h
      cases hfi : firstIdx l a with
      | none => rw [hfi] at h; simp at h
      | some j =>
        rw [hfi] at h
        have hij : i = j + 1 := by
          simpa using h.symm
        subst hij
        obtain ⟨hj, hget⟩ := ih hfi
        exact ⟨Nat.succ_lt_succ hj, hget⟩

theorem firstIdx_of_mem {α : Type} [DecidableEq α] {l : List α} {a : α}
    (h : a ∈ l) : ∃ i, firstIdx l a = some i := by
  induction l with
  | nil => simp at h
  | cons b l ih =>
    by_cases hb : b = a
    · exact ⟨0, by rw [firstIdx, if_pos hb]⟩
    · have hmem : a ∈ l := by
        rcases List.mem_cons.mp h with h' | h'
        · exact absurd h'.symm hb
        · exact h'
      obtain ⟨i, hi⟩ := ih hmem
      exact ⟨i + 1, by rw [firstIdx, if_neg hb, hi]; rfl⟩

theorem firstIdx_append_of_not_mem {α : Type} [DecidableEq α] {l₁ : List α}
    (l₂ : List α) {a : α} (h : a ∉ l₁) :
    firstIdx (l₁ ++ l₂) a = (firstIdx l₂ a).map (· + l₁.length) := by
  induction l₁ with
  | nil =>
    cases h' : firstIdx l₂ a <;> simp [h']
  | cons b l ih =>
    have hb : ¬ b = a := fun e => h (e ▸ List.mem_cons_self b l)
    rw [List.cons_append, firstIdx, if_neg hb,
      ih (fun hm => h (List.mem_cons_of_mem b hm))]
    cases h' : firstIdx l₂ a <;> simp [h', Nat.add_assoc]

theorem getD_append_right_len {α : Type} (l₁ l₂ : List α) (k : Nat) (d : α) :
    (l₁ ++ l₂).getD (l₁.length + k) d = l₂.getD k d := by
  rw [List.getD_eq_getElem?_getD, List.getD_eq_getElem?_getD,
    List.getElem?_append_right (Nat.le_add_right _ _), Nat.add_sub_cancel_left]

theorem getD_map_of_lt {α β : Type} (f : α → β) (l : List α) (i : Nat) (d : β)
    (h : i < l.length) : (l.map f).getD i d = f (l.get ⟨i, h⟩) := by
  rw [List.getD_eq_getElem?_getD, List.getElem?_map, List.getElem?_eq_getElem h]
  simp [List.get_eq_getElem]

theorem cellAt_eq_of_firstIdx {t : Table} {c : String} {i : Nat}
    (h : firstIdx t.cols c = some i) (r : List Val) :
    cellAt t r c = r.getD i Val.missing := by
  rw [cellAt, h]

theorem mem_distinctFirst {α : Type} [DecidableEq α] {l : List α} {a : α} :
    a ∈ distinctFirst l ↔ a ∈ l := by
  induction l with
  | nil => simp [distinctFirst]
  | cons b l ih =>
    by_cases hab : a = b
    · simp [distinctFirst, hab]
    · simp [distinctFirst, List.mem_filter, ih, hab]

theorem nodup_distinctFirst {α : Type} [DecidableEq α] (l : List α) :
    (distinctFirst l).Nodup := by
  induction l with
  | nil => exact List.nodup_nil
  | cons b l ih =>
    rw [distinctFirst, List.nodup_cons]
    refine ⟨?_, List.Nodup.filter _ ih⟩
    intro hmem
    have := (List.mem_filter.mp hmem).2
    simp at this

theorem distinctFirst_eq_self {α : Type} [DecidableEq α] {l : List α}
    (h : l.Nodup) : distinctFirst l = l := by
  induction l with
  | nil => rfl
  | cons b l ih =>
    rw [List.nodup_cons] at h
    rw [distinctFirst, ih h.2]
    congr 1
    apply List.filter_eq_self.mpr
    intro a ha
    simp only [decide_eq_true_eq]
    intro e
    exact h.1 (e ▸ ha)

theorem distinctFirst_append {α : Type} [DecidableEq α] (l l' : List α) :
    distinctFirst (l ++ l') =
      distinctFirst l ++ (distinctFirst l').filter (fun b => decide (¬ b ∈ l)) := by
  induction l with
  | nil =>
    simp only [List.nil_append, distinctFirst]
    rw [List.filter_eq_self.mpr]
    intro a _
    simp
  | cons a l ih =>
    rw [List.cons_append, distinctFirst, ih, List.filter_append, distinctFirst,
      List.cons_append]
    congr 2
    rw [List.filter_filter]
    apply List.filter_congr
    intro b _
    by_cases h1 : b = a <;> by_cases h2 : b ∈ l <;> simp [h1, h2]

theorem distinctFirst_append_of_subset {α : Type} [DecidableEq α] {l l' : List α}
    (hn : l.Nodup) (hs : ∀ a ∈ l', a ∈ l) : distinctFirst (l ++ l') = l := by
  rw [distinctFirst_append, distinctFirst_eq_self hn,
    List.filter_eq_nil_iff.mpr, List.append_nil]
  intro a ha
  simp only [decide_eq_true_eq, not_not]
  exact hs a (mem_distinctFirst.mp ha)

theorem distinctFirst_replicate_append {α : Type} [DecidableEq α] {k : Nat} (a : α)
    (l : List α) (hk : 0 < k) :
    distinctFirst (List.replicate k a ++ l) = distinctFirst (a :: l) := by
  induction k with
  | zero => cases hk
  | succ k ih =>
    rcases Nat.eq_zero_or_pos k with h | h
    · subst h; rfl
    · rw [List.replicate_succ, List.cons_append, distinctFirst, ih h, distinctFirst]
      congr 1
      rw [List.filter_cons, if_neg (by simp), List.filter_filter]
      apply List.filter_congr
      intro b _
      by_cases h1 : b = a <;> simp [h1]

theorem distinctFirst_flatMap_replicate {α : Type} [DecidableEq α] {l : List α}
    {k : Nat} (hk : 0 < k) (hn : l.Nodup) :
    distinctFirst (l.flatMap (fun a => List.replicate k a)) = l := by
  induction l with
  | nil => rfl
  | cons a l ih =>
    rw [List.nodup_cons] at hn
    rw [List.flatMap_cons, distinctFirst_replicate_append a _ hk, distinctFirst, ih hn.2]
    congr 1
    apply List.filter_eq_self.mpr
    intro b hb
    simp only [decide_eq_true_eq]
    intro e
    exact hn.1 (e ▸ hb)

theorem find?_key_self {κ β : Type} [DecidableEq κ] {entries : List (κ × β)}
    (hn : (entries.map (fun e => e.1)).Nodup) {e : κ × β} (he : e ∈ entries) :
    entries.find? (fun x => decide (x.1 = e.1)) = some e := by
  induction entries with
  | nil => simp at he
  | cons f l ih =>
    rw [List.map_cons, List.nodup_cons] at hn
    rcases List.mem_cons.mp he with rfl | hmem
    · rw [List.find?_cons_of_pos]
      simp
    · have hne : ¬ f.1 = e.1 := fun h =>
        hn.1 (h ▸ List.mem_map_of_mem (fun x => x.1) hmem)
      rw [List.find?_cons_of_neg, ih hn.2 hmem]
      simp [hne]

theorem gridCell_of_mem {κ₁ κ₂ : Type} [DecidableEq κ₁] [DecidableEq κ₂]
    {entries : List ((κ₁ × κ₂) × Val)}
    (hn : (entries.map (fun e => e.1)).Nodup) {e : (κ₁ × κ₂) × Val}
    (he : e ∈ entries) : gridCell entries e.1 = e.2 := by
  rw [gridCell, find?_key_self hn he]

theorem gridCell_of_absent {κ₁ κ₂ : Type} [DecidableEq κ₁] [DecidableEq κ₂]
    {entries : List ((κ₁ × κ₂) × Val)} {k : κ₁ × κ₂}
    (h : ∀ e ∈ entries, e.1 ≠ k) : gridCell entries k = Val.missing := by
  rw [gridCell, List.find?_eq_none.mpr]
  intro x hx
  simp [h x hx]

theorem pcell_mkGrid (entries : List ((Val × Val) × Val)) (rks cks : List Val)
    (rk ck : Val) (hr : rk ∈ rks) (hc : ck ∈ cks) :
    pcell ⟨rks, cks, mkGrid entries rks cks⟩ rk ck = gridCell entries (rk, ck) := by
  obtain ⟨i, hi⟩ := firstIdx_of_mem hr
  obtain ⟨j, hj⟩ := firstIdx_of_mem hc
  obtain ⟨hilt, higet⟩ := firstIdx_spec hi
  obtain ⟨hjlt, hjget⟩ := firstIdx_spec hj
  rw [pcell]
  simp only [hi, hj]
  rw [mkGrid, getD_map_of_lt _ _ _ _ hilt, getD_map_of_lt _ _ _ _ hjlt, higet, hjget]

theorem nodup_flatMap_prod {α β γ δ : Type} {l₁ : List α} {l₂ : List β}
    {f : α → γ} {g : β → δ} (h₁ : (l₁.map f).Nodup) (h₂ : (l₂.map g).Nodup) :
    (l₁.flatMap (fun a => l₂.map (fun b => (f a, g b)))).Nodup := by
  induction l₁ with
  | nil => simp
  | cons a l ih =>
    rw [List.map_cons, List.nodup_cons] at h₁
    rw [List.flatMap_cons, List.nodup_append]
    refine ⟨?_, ih h₁.2, ?_⟩
    · have hrw : l₂.map (fun b => (f a, g b)) = (l₂.map g).map (fun x => (f a, x)) := by
        rw [List.map_map]; rfl
      rw [hrw]
      exact List.Nodup.map (fun x y hxy => by simpa using hxy) h₂
    · intro x hx hx'
      obtain ⟨b, _, rfl⟩ := List.mem_map.mp hx
      obtain ⟨a', ha', hmem⟩ := List.mem_flatMap.mp hx'
      obtain ⟨b', _, heq⟩ := List.mem_map.mp hmem
      have hfa : f a' = f a := congrArg Prod.fst heq
      exact h₁.1 (hfa ▸ List.mem_map_of_mem f ha')

theorem nodup_flatMap_prod_swap {α β γ δ : Type} {l₁ : List α} {l₂ : List β}
    {f : α → γ} {g : β → δ} (h₁ : (l₁.map f).Nodup) (h₂ : (l₂.map g).Nodup) :
    (l₁.flatMap (fun a => l₂.map (fun b => (g b, f a)))).Nodup := by
  induction l₁ with
  | nil => simp
  | cons a l ih =>
    rw [List.map_cons, List.nodup_cons] at h₁
    rw [List.flatMap_cons, List.nodup_append]
    refine ⟨?_, ih h₁.2, ?_⟩
    · have hrw : l₂.map (fun b => (g b, f a)) = (l₂.map g).map (fun x => (x, f a)) := by
        rw [List.map_map]; rfl
      rw [hrw]
      exact List.Nodup.map (fun x y hxy => by simpa using hxy) h₂
    · intro x hx hx'
      obtain ⟨b, _, rfl⟩ := List.mem_map.mp hx
      obtain ⟨a', ha', hmem⟩ := List.mem_flatMap.mp hx'
      obtain ⟨b', _, heq⟩ := List.mem_map.mp hmem
      have hfa : f a' = f a := congrArg Prod.snd heq
      exact h₁.1 (hfa ▸ List.mem_map_of_mem f ha')

theorem map_eq_of_zip {α β : Type} {l₁ : List α} {l₂ : List β} {f : α → β}
    (hlen : l₁.length = l₂.length) (h : ∀ p ∈ l₁.zip l₂, f p.1 = p.2) :
    l₁.map f = l₂ := by
  induction l₁ generalizing l₂ with
  | nil =>
    cases l₂ with
    | nil => rfl
    | cons b l₂ => simp at hlen
  | cons a l ih =>
    cases l₂ with
    | nil => simp at hlen
    | cons b l₂ =>
      rw [List.map_cons]
      congr 1
      · exact h (a, b) (by simp)
      · exact ih (by simpa using hlen) (fun p hp => h p (List.mem_cons_of_mem _ hp))

/-! ### Claim C1: melt shape -/

/-- C1: for every table and valid id/value column lists (subsets of the
table's columns, disjoint, value list non-empty), `melt` succeeds with
columns `ids ++ [variable, value]` and exactly `len(rows) * len(vals)`
rows. -/
theorem melt_shape (t : Table) (ids vals : List String) (vn wn : String)
    (hsub : ∀ c ∈ ids ++ vals, c ∈ t.cols)
    (hdisj : ∀ c ∈ ids, c ∉ vals) (hne : vals ≠ []) :
    melt t ids vals vn wn = Except.ok ⟨ids ++ [vn, wn], meltRows t ids vals⟩ ∧
      (meltRows t ids vals).length = t.rows.length * vals.length := by
  constructor
  · rw [melt, if_pos hsub]
  · rw [meltRows, length_flatMap_const _ _ t.rows.length
      (fun c _ => List.length_map _ _), Nat.mul_comm]

/-- Witness for C1 at a concrete two-row table melted over two value
columns: the hypotheses hold and the result has 2 × 2 = 4 rows. -/
theorem melt_shape_witness :
    ((∀ c ∈ ["id"] ++ ["h", "w"], c ∈ exWide.cols) ∧
      (∀ c ∈ ["id"], c ∉ ["h", "w"]) ∧ (["h", "w"] ≠ [])) ∧
    (melt exWide ["id"] ["h", "w"] "variable" "value" =
      Except.ok ⟨["id"] ++ ["variable", "value"], meltRows exWide ["id"] ["h", "w"]⟩ ∧
      (meltRows exWide ["id"] ["h", "w"]).length =
        exWide.rows.length * (["h", "w"] : List String).length) :=
  ⟨⟨by decide, by decide, by decide⟩,
    melt_shape exWide ["id"] ["h", "w"] "variable" "value" (by decide) (by decide) (by decide)⟩

/-! ### Claim C3: pivot duplicate-key rejection -/

/-- C3: whenever some (index-column, columns-column) pair occurs in two
distinct input rows, `pivot` fails with `DuplicateKeyError` and produces
no output table — no implicit aggregation is performed. -/
theorem pivot_duplicate_key (t : Table) (ic cc vc : String)
    (hc : ic ∈ t.cols ∧ cc ∈ t.cols ∧ vc ∈ t.cols)
    (i j : Nat) (hi : i < t.rows.length) (hj : j < t.rows.length) (hij : i ≠ j)
    (hdup : (cellAt t (t.rows.get ⟨i, hi⟩) ic, cellAt t (t.rows.get ⟨i, hi⟩) cc) =
      (cellAt t (t.rows.get ⟨j, hj⟩) ic, cellAt t (t.rows.get ⟨j, hj⟩) cc)) :
    pivot t ic cc vc = Except.error Err.duplicateKey := by
  rw [pivot, if_pos hc, if_neg]
  intro hnd
  have hinj := List.nodup_iff_injective_get.mp hnd
  have hlen : ((pivotEntries t ic cc vc).map (fun e => e.1)).length = t.rows.length := by
    simp [pivotEntries]
  have hget : ∀ (n : Nat) (hn : n < t.rows.length),
      ((pivotEntries t ic cc vc).map (fun e => e.1)).get ⟨n, by rw [hlen]; exact hn⟩ =
        (cellAt t (t.rows.get ⟨n, hn⟩) ic, cellAt t (t.rows.get ⟨n, hn⟩) cc) := by
    intro n hn
    simp [pivotEntries, List.get_eq_getElem]
  have hkey : ((pivotEntries t ic cc vc).map (fun e => e.1)).get ⟨i, by rw [hlen]; exact hi⟩ =
      ((pivotEntries t ic cc vc).map (fun e => e.1)).get ⟨j, by rw [hlen]; exact hj⟩ := by
    rw [hget i hi, hget j hj, hdup]
  exact hij (congrArg Fin.val (hinj hkey))

/-- Witness for C3 at the specification's example input, the table with
rows (index 1, col A, val 5) and (index 1, col A, val 7). -/
theorem pivot_duplicate_key_witness :
    (("index" ∈ exDup.cols ∧ "col" ∈ exDup.cols ∧ "val" ∈ exDup.cols) ∧
      (0 : Nat) < exDup.rows.length ∧ (1 : Nat) < exDup.rows.length ∧ (0 : Nat) ≠ 1 ∧
      (cellAt exDup (exDup.rows.get ⟨0, by decide⟩) "index",
        cellAt exDup (exDup.rows.get ⟨0, by decide⟩) "col") =
       (cellAt exDup (exDup.rows.get ⟨1, by decide⟩) "index",
        cellAt exDup (exDup.rows.get ⟨1, by decide⟩) "col")) ∧
    pivot exDup "index" "col" "val" = Except.error Err.duplicateKey :=
  ⟨⟨by decide, by decide, by decide, by decide, by decide⟩,
    pivot_duplicate_key exDup "index" "col" "val" (by decide) 0 1 (by decide) (by decide)
      (by decide) (by decide)⟩

/-! ### Claim C7: pivot fills absent combinations with the missing marker -/

/-- C7: on an input pivot accepts (valid columns, no duplicate keys), any
(row-key, column-key) combination of observed key values that is absent
from the input rows yields the missing marker in the output cell, and
the absent combination causes no error. -/
theorem pivot_missing_fill (t : Table) (ic cc vc : String)
    (hc : ic ∈ t.cols ∧ cc ∈ t.cols ∧ vc ∈ t.cols)
    (hnd : ((pivotEntries t ic cc vc).map (fun e => e.1)).Nodup)
    (rk ck : Val)
    (hrk : rk ∈ t.rows.map (fun r => cellAt t r ic))
    (hck : ck ∈ t.rows.map (fun r => cellAt t r cc))
    (habs : ∀ r ∈ t.rows, ¬(cellAt t r ic = rk ∧ cellAt t r cc = ck)) :
    ∃ p, pivot t ic cc vc = Except.ok p ∧ pcell p rk ck = Val.missing := by
  have hfst : (pivotEntries t ic cc vc).map (fun e => e.1.1) =
      t.rows.map (fun r => cellAt t r ic) := by
    rw [pivotEntries, List.map_map]; rfl
  have hsnd : (pivotEntries t ic cc vc).map (fun e => e.1.2) =
      t.rows.map (fun r => cellAt t r cc) := by
    rw [pivotEntries, List.map_map]; rfl
  refine ⟨_, by rw [pivot, if_pos hc, if_pos hnd], ?_⟩
  rw [pcell_mkGrid _ _ _ _ _ (mem_distinctFirst.mpr (by rw [hfst]; exact hrk))
    (mem_distinctFirst.mpr (by rw [hsnd]; exact hck))]
  apply gridCell_of_absent
  intro e he heq
  obtain ⟨r, hr, rfl⟩ := List.mem_map.mp he
  have h1 : cellAt t r ic = rk := congrArg Prod.fst heq
  have h2 : cellAt t r cc = ck := congrArg Prod.snd heq
  exact habs r hr ⟨h1, h2⟩

/-- Witness for C7: in a table with rows (1, A, 5) and (2, B, 6) the
combination (1, B) is absent; pivot succeeds and that cell holds the
missing marker. -/
theorem pivot_missing_fill_witness :
    (("index" ∈ exSparse.cols ∧ "col" ∈ exSparse.cols ∧ "val" ∈ exSparse.cols) ∧
      ((pivotEntries exSparse "index" "col" "val").map (fun e => e.1)).Nodup ∧
      Val.int 1 ∈ exSparse.rows.map (fun r => cellAt exSparse r "index") ∧
      Val.str "B" ∈ exSparse.rows.map (fun r => cellAt exSparse r "col") ∧
      (∀ r ∈ exSparse.rows,
        ¬(cellAt exSparse r "index" = Val.int 1 ∧ cellAt exSparse r "col" = Val.str "B"))) ∧
    (∃ p, pivot exSparse "index" "col" "val" = Except.ok p ∧
      pcell p (Val.int 1) (Val.str "B") = Val.missing) :=
  ⟨⟨by decide, by decide, by decide, by decide, by decide⟩,
    pivot_missing_fill exSparse "index" "col" "val" (by decide) (by decide) (Val.int 1)
      (Val.str "B") (by decide) (by decide) (by decide)⟩

/-! ### Claim C2: melt followed by pivot reconstructs the values -/

theorem val_str_injective : Function.Injective Val.str := by
  intro a b h
  injection h

theorem pivotEntries_melt (t : Table) (idc : String) (vals : List String)
    (h1 : idc ≠ "variable") (h2 : idc ≠ "value") :
    pivotEntries ⟨[idc] ++ ["variable", "value"], meltRows t [idc] vals⟩
        idc "variable" "value" =
      vals.flatMap (fun c => t.rows.map (fun r =>
        ((cellAt t r idc, Val.str c), cellAt t r c))) := by
  have hcell0 : ∀ (rows : List (List Val)) (a b v : Val),
      cellAt ⟨[idc] ++ ["variable", "value"], rows⟩ [a, b, v] idc = a := by
    intro rows a b v
    simp [cellAt, firstIdx]
  have hcell1 : ∀ (rows : List (List Val)) (a b v : Val),
      cellAt ⟨[idc] ++ ["variable", "value"], rows⟩ [a, b, v] "variable" = b := by
    intro rows a b v
    simp [cellAt, firstIdx, h1]
  have hcell2 : ∀ (rows : List (List Val)) (a b v : Val),
      cellAt ⟨[idc] ++ ["variable", "value"], rows⟩ [a, b, v] "value" = v := by
    intro rows a b v
    simp [cellAt, firstIdx, h2]
  rw [pivotEntries]
  show (meltRows t [idc] vals).map _ = _
  rw [meltRows, List.map_flatMap]
  refine congrArg _ (funext fun c => ?_)
  rw [List.map_map]
  refine congrArg (fun f => List.map f t.rows) (funext fun r => ?_)
  show ((cellAt _ [cellAt t r idc, Val.str c, cellAt t r c] idc,
      cellAt _ [cellAt t r idc, Val.str c, cellAt t r c] "variable"),
      cellAt _ [cellAt t r idc, Val.str c, cellAt t r c] "value") = _
  rw [hcell0, hcell1, hcell2]

/-- C2: for a table whose id-column values are distinct (so the melted
table has no duplicate (id, variable) pairs), pivoting the melt of the
table on the id/variable/value columns succeeds and reproduces every
original cell: the output cell addressed by (id value of row r, value
column c) is exactly r's cell at c. -/
theorem melt_pivot_round_trip (t : Table) (idc : String) (vals : List String)
    (hsub : ∀ c ∈ [idc] ++ vals, c ∈ t.cols)
    (h1 : idc ≠ "variable") (h2 : idc ≠ "value")
    (hids : (t.rows.map (fun r => cellAt t r idc)).Nodup)
    (hvals : vals.Nodup) :
    melt t [idc] vals "variable" "value" =
      Except.ok ⟨[idc] ++ ["variable", "value"], meltRows t [idc] vals⟩ ∧
    ∃ p, pivot ⟨[idc] ++ ["variable", "value"], meltRows t [idc] vals⟩
        idc "variable" "value" = Except.ok p ∧
      ∀ r ∈ t.rows, ∀ c ∈ vals, pcell p (cellAt t r idc) (Val.str c) = cellAt t r c := by
  have hent := pivotEntries_melt t idc vals h1 h2
  have hkeys : (pivotEntries ⟨[idc] ++ ["variable", "value"], meltRows t [idc] vals⟩
      idc "variable" "value").map (fun e => e.1) =
      vals.flatMap (fun c => t.rows.map (fun r => (cellAt t r idc, Val.str c))) := by
    rw [hent, List.map_flatMap]
    refine congrArg _ (funext fun c => ?_)
    rw [List.map_map]
    rfl
  have hnd : ((pivotEntries ⟨[idc] ++ ["variable", "value"], meltRows t [idc] vals⟩
      idc "variable" "value").map (fun e => e.1)).Nodup := by
    rw [hkeys]
    exact nodup_flatMap_prod_swap (List.Nodup.map val_str_injective hvals) hids
  have hfst : (pivotEntries ⟨[idc] ++ ["variable", "value"], meltRows t [idc] vals⟩
      idc "variable" "value").map (fun e => e.1.1) =
      vals.flatMap (fun c => t.rows.map (fun r => cellAt t r idc)) := by
    rw [hent, List.map_flatMap]
    refine congrArg _ (funext fun c => ?_)
    rw [List.map_map]
    rfl
  have hsnd : (pivotEntries ⟨[idc] ++ ["variable", "value"], meltRows t [idc] vals⟩
      idc "variable" "value").map (fun e => e.1.2) =
      vals.flatMap (fun c => t.rows.map (fun r => Val.str c)) := by
    rw [hent, List.map_flatMap]
    refine congrArg _ (funext fun c => ?_)
    rw [List.map_map]
    rfl
  refine ⟨by rw [melt, if_pos hsub], ?_⟩
  have hcont : idc ∈ ([idc] ++ ["variable", "value"] : List String) ∧
      "variable" ∈ ([idc] ++ ["variable", "value"] : List String) ∧
      "value" ∈ ([idc] ++ ["variable", "value"] : List String) := by
    refine ⟨List.mem_append_left _ (List.mem_singleton.mpr rfl), ?_, ?_⟩ <;> simp
  refine ⟨_, by rw [pivot, if_pos hcont, if_pos hnd], ?_⟩
  intro r hr c hc
  rw [pcell_mkGrid _ _ _ _ _
    (mem_distinctFirst.mpr (by
      rw [hfst]
      exact List.mem_flatMap.mpr ⟨c, hc, List.mem_map_of_mem _ hr⟩))
    (mem_distinctFirst.mpr (by
      rw [hsnd]
      exact List.mem_flatMap.mpr ⟨c, hc, List.mem_map_of_mem _ hr⟩))]
  have hmem : ((cellAt t r idc, Val.str c), cellAt t r c) ∈
      pivotEntries ⟨[idc] ++ ["variable", "value"], meltRows t [idc] vals⟩
        idc "variable" "value" := by
    rw [hent]
    exact List.mem_flatMap.mpr ⟨c, hc, List.mem_map_of_mem _ hr⟩
  exact gridCell_of_mem hnd hmem

/-- Witness for C2 at a two-row wide table with a distinct id column and
two value columns. -/
theorem melt_pivot_round_trip_witness :
    ((∀ c ∈ ["id"] ++ ["h", "w"], c ∈ exWide.cols) ∧
      ("id" : String) ≠ "variable" ∧ ("id" : String) ≠ "value" ∧
      (exWide.rows.map (fun r => cellAt exWide r "id")).Nodup ∧
      (["h", "w"] : List String).Nodup) ∧
    (melt exWide ["id"] ["h", "w"] "variable" "value" =
      Except.ok ⟨["id"] ++ ["variable", "value"], meltRows exWide ["id"] ["h", "w"]⟩ ∧
    ∃ p, pivot ⟨["id"] ++ ["variable", "value"], meltRows exWide ["id"] ["h", "w"]⟩
        "id" "variable" "value" = Except.ok p ∧
      ∀ r ∈ exWide.rows, ∀ c ∈ ["h", "w"],
        pcell p (cellAt exWide r "id") (Val.str c) = cellAt exWide r c) :=
  ⟨⟨by decide, by decide, by decide, by decide, by decide⟩,
    melt_pivot_round_trip exWide "id" ["h", "w"] (by decide) (by decide) (by decide)
      (by decide) (by decide)⟩

/-! ### Claim C5: melt row order -/

theorem getElem?_flatMap_const {α β : Type} {n : Nat} (f : α → List β) (i : Nat)
    (hi : i < n) :
    ∀ (l : List α), (∀ a ∈ l, (f a).length = n) →
      ∀ (k : Nat) (hk : k < l.length),
        (l.flatMap f)[k * n + i]? = (f (l.get ⟨k, hk⟩))[i]? := by
  intro l
  induction l with
  | nil =>
    intro _ k hk
    simp at hk
  | cons a l ih =>
    intro hf k hk
    rw [List.flatMap_cons]
    cases k with
    | zero =>
      rw [Nat.zero_mul, Nat.zero_add, List.getElem?_append, if_pos]
      · rfl
      · rw [hf a (List.mem_cons_self a l)]
        exact hi
    | succ k =>
      have hfa : (f a).length = n := hf a (List.mem_cons_self a l)
      have hle : (f a).length ≤ (k + 1) * n + i := by
        rw [hfa]
        exact Nat.le_trans (Nat.le_mul_of_pos_left n (Nat.succ_pos k)) (Nat.le_add_right _ _)
      rw [List.getElem?_append_right hle]
      have harith : (k + 1) * n + i - (f a).length = k * n + i := by
        rw [hfa, Nat.succ_mul]
        omega
      rw [harith]
      exact ih (fun b hb => hf b (List.mem_cons_of_mem _ hb)) k (Nat.lt_of_succ_lt_succ hk)

/-- C5: the rows of melt come grouped by value column — the row at
position `k * (number of input rows) + i` of the output is the one
derived from value column `k` and input row `i`, so all rows for
`vals[0]` come first in the input's row order, then those for
`vals[1]`, and so on. -/
theorem melt_row_order (t : Table) (ids vals : List String) (vn wn : String)
    (hsub : ∀ c ∈ ids ++ vals, c ∈ t.cols) :
    melt t ids vals vn wn = Except.ok ⟨ids ++ [vn, wn], meltRows t ids vals⟩ ∧
    ∀ (k i : Nat) (hk : k < vals.length) (hi : i < t.rows.length),
      (meltRows t ids vals)[k * t.rows.length + i]? =
        some (ids.map (fun c => cellAt t (t.rows.get ⟨i, hi⟩) c) ++
          [Val.str (vals.get ⟨k, hk⟩),
           cellAt t (t.rows.get ⟨i, hi⟩) (vals.get ⟨k, hk⟩)]) := by
  refine ⟨by rw [melt, if_pos hsub], ?_⟩
  intro k i hk hi
  rw [meltRows,
    getElem?_flatMap_const _ i hi _ (fun c _ => List.length_map _ _) k hk,
    List.getElem?_map, List.getElem?_eq_getElem hi]
  simp [List.get_eq_getElem]

/-- Witness for C5: at the concrete two-row table, every output position
holds the row predicted by the grouped ordering. -/
theorem melt_row_order_witness :
    (∀ c ∈ ["id"] ++ ["h", "w"], c ∈ exWide.cols) ∧
    (melt exWide ["id"] ["h", "w"] "variable" "value" =
      Except.ok ⟨["id"] ++ ["variable", "value"], meltRows exWide ["id"] ["h", "w"]⟩ ∧
    ∀ (k i : Nat) (hk : k < (["h", "w"] : List String).length)
      (hi : i < exWide.rows.length),
      (meltRows exWide ["id"] ["h", "w"])[k * exWide.rows.length + i]? =
        some (["id"].map (fun c => cellAt exWide (exWide.rows.get ⟨i, hi⟩) c) ++
          [Val.str ((["h", "w"] : List String).get ⟨k, hk⟩),
           cellAt exWide (exWide.rows.get ⟨i, hi⟩)
             ((["h", "w"] : List String).get ⟨k, hk⟩)])) :=
  ⟨by decide, melt_row_order exWide ["id"] ["h", "w"] "variable" "value" (by decide)⟩

/-! ### Claim C6: wide-to-long keeps only id, suffix label and stub columns -/

/-- C6: when the id column exists and every stub+suffix combination has a
matching input column, `wideToLong` succeeds; its columns are exactly
`idc :: jname :: stubs`, so every input column that is not the id column
and matches no stub+suffix pattern (such as `X` in the specification's
example) is dropped; there is one output row per (input row, suffix)
pair — its id cell and suffix label are given by the projection
equation — and every suffix label is drawn from the inferred suffix
set. -/
theorem wideToLong_columns (t : Table) (stubs : List String) (idc jname : String)
    (hid : idc ∈ t.cols)
    (hmatch : ∀ s ∈ stubs, ∀ suf ∈ inferSuffixes t stubs, (s ++ suf) ∈ t.cols) :
    wideToLong t stubs idc jname =
      Except.ok ⟨idc :: jname :: stubs, w2lRows t stubs idc⟩ ∧
    (w2lRows t stubs idc).length = t.rows.length * (inferSuffixes t stubs).length ∧
    (w2lRows t stubs idc).map (fun row => (row.getD 0 Val.missing, row.getD 1 Val.missing)) =
      t.rows.flatMap (fun r =>
        (inferSuffixes t stubs).map (fun suf => (cellAt t r idc, Val.str suf))) ∧
    ∀ row ∈ w2lRows t stubs idc,
      ∃ suf ∈ inferSuffixes t stubs, row.getD 1 Val.missing = Val.str suf := by
  refine ⟨by rw [wideToLong, if_pos hid, if_pos hmatch], ?_, ?_, ?_⟩
  · exact length_flatMap_const _ _ _ (fun r _ => List.length_map _ _)
  · rw [w2lRows, List.map_flatMap]
    refine congrArg _ (funext fun r => ?_)
    rw [List.map_map]
    rfl
  · intro row hrow
    obtain ⟨r, _, hmem⟩ := List.mem_flatMap.mp hrow
    obtain ⟨suf, hsuf, rfl⟩ := List.mem_map.mp hmem
    exact ⟨suf, hsuf, rfl⟩

/-- Witness for C6 at the specification's example: input columns
A1970/A1980/B1970/B1980/X/id with stubs A and B; the output columns are
id, year, A, B (so X is dropped) and there is one row per (id, year)
pair with year drawn from the inferred suffixes 1970 and 1980. -/
theorem wideToLong_columns_witness :
    (("id" ∈ exW2L.cols) ∧
      (∀ s ∈ ["A", "B"], ∀ suf ∈ inferSuffixes exW2L ["A", "B"], (s ++ suf) ∈ exW2L.cols)) ∧
    (wideToLong exW2L ["A", "B"] "id" "year" =
      Except.ok ⟨"id" :: "year" :: ["A", "B"], w2lRows exW2L ["A", "B"] "id"⟩ ∧
    (w2lRows exW2L ["A", "B"] "id").length =
      exW2L.rows.length * (inferSuffixes exW2L ["A", "B"]).length ∧
    (w2lRows exW2L ["A", "B"] "id").map
        (fun row => (row.getD 0 Val.missing, row.getD 1 Val.missing)) =
      exW2L.rows.flatMap (fun r =>
        (inferSuffixes exW2L ["A", "B"]).map (fun suf => (cellAt exW2L r "id", Val.str suf))) ∧
    ∀ row ∈ w2lRows exW2L ["A", "B"] "id",
      ∃ suf ∈ inferSuffixes exW2L ["A", "B"], row.getD 1 Val.missing = Val.str suf) :=
  ⟨⟨by decide, by decide⟩,
    wideToLong_columns exW2L ["A", "B"] "id" "year" (by decide) (by decide)⟩

/-! ### Claim C8: reshaping operations leave their input unchanged -/

/-- C8: every reshaping operation is a pure function that constructs its
result from the input; the input table observed after any of the five
calls — its columns, index and values — is identical to the input
observed before.  (In the model each call returns the pair of its
result and the post-call input state.) -/
theorem reshape_input_unchanged (t u : Table) (ids vals stubs : List String)
    (vn wn idc jname ic cc vc : String) (ht : HTable) (d : Bool) (s : Stacked)
    (L : Nat) :
    (meltCall t ids vals vn wn).2 = t ∧
    (wideToLongCall u stubs idc jname).2 = u ∧
    (stackCall ht d).2 = ht ∧
    (unstackCall s L).2 = s ∧
    (pivotCall t ic cc vc).2 = t :=
  ⟨rfl, rfl, rfl, rfl, rfl⟩

/-! ### Stack/unstack lemmas -/

theorem filterMap_keep_of_noMissing {α β : Type} (l : List (α × Val)) (f : α × Val → β)
    (d : Bool) (h : ∀ q ∈ l, q.2 ≠ Val.missing) :
    l.filterMap (fun q => if d = true ∧ q.2 = Val.missing then none else some (f q)) =
      l.map f := by
  induction l with
  | nil => rfl
  | cons q l ih =>
    rw [List.filterMap_cons, List.map_cons]
    rw [if_neg (fun hc => h q (List.mem_cons_self q l) hc.2)]
    rw [ih (fun p hp => h p (List.mem_cons_of_mem _ hp))]

theorem eraseIdx_append_len {α : Type} (l l' : List α) (a : α) :
    (l ++ a :: l').eraseIdx l.length = l ++ l' := by
  induction l with
  | nil => rfl
  | cons b l ih => simp [List.eraseIdx, ih]

theorem flatMap_congr_mem {α β : Type} {l : List α} {f g : α → List β}
    (h : ∀ a ∈ l, f a = g a) : l.flatMap f = l.flatMap g := by
  induction l with
  | nil => rfl
  | cons a l ih =>
    rw [List.flatMap_cons, List.flatMap_cons, h a (List.mem_cons_self a l),
      ih (fun b hb => h b (List.mem_cons_of_mem _ hb))]

theorem stack_entries_of_noMissing (t : HTable) (hm : t.noMissing) (d : Bool) :
    (stack t d).entries =
      (t.rowIndex.zip t.values).flatMap (fun p =>
        (t.cols.zip p.2).map (fun q => (p.1 ++ [q.1], q.2))) := by
  show List.flatMap _ _ = _
  apply flatMap_congr_mem
  intro p hp
  apply filterMap_keep_of_noMissing
  intro q hq
  exact hm p.2 (List.of_mem_zip hp).2 q.2 (List.of_mem_zip hq).2

theorem map_comp_fst_zip {α β γ : Type} (g : α → γ) :
    ∀ (l₁ : List α) (l₂ : List β), l₁.length ≤ l₂.length →
      (l₁.zip l₂).map (fun q => g q.1) = l₁.map g := by
  intro l₁
  induction l₁ with
  | nil => intro l₂ _; rfl
  | cons a l ih =>
    intro l₂ h
    cases l₂ with
    | nil => simp at h
    | cons b l₂ =>
      rw [List.zip_cons_cons, List.map_cons, List.map_cons,
        ih l₂ (Nat.le_of_succ_le_succ h)]

theorem zip_flatMap_fst {α β γ : Type} (g : α → List γ) (l₁ : List α) (l₂ : List β)
    (hlen : l₁.length ≤ l₂.length) :
    (l₁.zip l₂).flatMap (fun p => g p.1) = l₁.flatMap g := by
  calc (l₁.zip l₂).flatMap (fun p => g p.1)
      = ((l₁.zip l₂).map Prod.fst).flatMap g :=
        (List.flatMap_map Prod.fst g (l₁.zip l₂)).symm
    _ = l₁.flatMap g := by rw [List.map_fst_zip _ _ hlen]

theorem map_const_list {α β : Type} (l : List α) (b : β) :
    l.map (fun _ => b) = List.replicate l.length b := by
  induction l with
  | nil => rfl
  | cons a l ih => simp [List.replicate_succ, ih]

theorem distinctFirst_flatMap_const {α β : Type} [DecidableEq β] {l : List α}
    {cs : List β} (hl : l ≠ []) (hcs : cs.Nodup) :
    distinctFirst (l.flatMap (fun _ => cs)) = cs := by
  cases l with
  | nil => exact absurd rfl hl
  | cons a l =>
    rw [List.flatMap_cons]
    apply distinctFirst_append_of_subset hcs
    intro b hb
    obtain ⟨_, _, hmem⟩ := List.mem_flatMap.mp hb
    exact hmem

theorem unstackEntries_stack (t : HTable) (hm : t.noMissing) (d : Bool)
    (hIx : ∀ ix ∈ t.rowIndex, ix.length = t.rowLevels) :
    unstackEntries (stack t d) t.rowLevels =
      (t.rowIndex.zip t.values).flatMap (fun p =>
        (t.cols.zip p.2).map (fun q => ((p.1, q.1), q.2))) := by
  rw [unstackEntries, stack_entries_of_noMissing t hm d, List.map_flatMap]
  apply flatMap_congr_mem
  intro p hp
  rw [List.map_map]
  apply List.map_congr_left
  intro q _
  show (((p.1 ++ [q.1]).eraseIdx t.rowLevels, (p.1 ++ [q.1]).getD t.rowLevels ""), q.2) =
    ((p.1, q.1), q.2)
  have hplen : p.1.length = t.rowLevels := hIx p.1 (List.of_mem_zip hp).1
  rw [← hplen, eraseIdx_append_len p.1 [] q.1, List.append_nil,
    ← Nat.add_zero p.1.length, getD_append_right_len]
  rfl

/-! ### Claim C4: stack/unstack round trip -/

/-- C4 counterexample: the claim as stated fails for a table with a column
but no rows — it contains no missing cells, yet stacking yields no
entries, so unstacking cannot recover the column names and the round
trip does not reconstruct the table. -/
theorem stack_unstack_counterexample :
    exNoRows.wf ∧ exNoRows.noMissing ∧
      (unstackDefault (stack exNoRows true)).toOption ≠ some exNoRows := by
  refine ⟨by decide, by decide, ?_⟩
  decide

/-- C4 (amended): for every hierarchical table with no missing cells and
at least one row and one column, unstacking the stacked table at the
stacked level (the innermost level, the default of unstack) reconstructs
the table exactly — equal index, columns, and values. -/
theorem stack_unstack_round_trip (t : HTable) (hw : t.wf) (hm : t.noMissing)
    (hr : t.rowIndex ≠ []) (hc : t.cols ≠ []) (d : Bool) :
    unstackDefault (stack t d) = Except.ok t := by
  obtain ⟨hNd, hCd, hLen, hIx, hRow⟩ := hw
  have hE := unstackEntries_stack t hm d hIx
  have hrowlen : t.rowIndex.length ≤ t.values.length := Nat.le_of_eq hLen.symm
  have hchunklen : ∀ p ∈ t.rowIndex.zip t.values, t.cols.length ≤ p.2.length := by
    intro p hp
    exact Nat.le_of_eq (hRow p.2 (List.of_mem_zip hp).2).symm
  have hkeys : (unstackEntries (stack t d) t.rowLevels).map (fun e => e.1) =
      t.rowIndex.flatMap (fun ix => t.cols.map (fun c => (ix, c))) := by
    rw [hE, List.map_flatMap]
    exact Eq.trans
      (flatMap_congr_mem (fun p hp => by
        rw [List.map_map]
        exact map_comp_fst_zip (fun c => (p.1, c)) t.cols p.2 (hchunklen p hp)))
      (zip_flatMap_fst (fun ix => t.cols.map (fun c => (ix, c))) t.rowIndex t.values
        hrowlen)
  have hnodup : ((unstackEntries (stack t d) t.rowLevels).map (fun e => e.1)).Nodup := by
    rw [hkeys]
    exact nodup_flatMap_prod (f := id) (g := id) (by simpa using hNd) (by simpa using hCd)
  have hfst : distinctFirst
      ((unstackEntries (stack t d) t.rowLevels).map (fun e => e.1.1)) = t.rowIndex := by
    rw [hE, List.map_flatMap]
    have hlist : ((t.rowIndex.zip t.values).flatMap fun p =>
        ((t.cols.zip p.2).map (fun q => ((p.1, q.1), q.2))).map (fun e => e.1.1)) =
        t.rowIndex.flatMap (fun ix => List.replicate t.cols.length ix) :=
      Eq.trans
        (flatMap_congr_mem (fun p hp => by
          rw [List.map_map]
          exact Eq.trans
            (map_comp_fst_zip (fun _ => p.1) t.cols p.2 (hchunklen p hp))
            (map_const_list t.cols p.1)))
        (zip_flatMap_fst (fun ix => List.replicate t.cols.length ix) t.rowIndex t.values
          hrowlen)
    rw [hlist]
    exact distinctFirst_flatMap_replicate (List.length_pos.mpr hc) hNd
  have hsnd : distinctFirst
      ((unstackEntries (stack t d) t.rowLevels).map (fun e => e.1.2)) = t.cols := by
    rw [hE, List.map_flatMap]
    have hlist : ((t.rowIndex.zip t.values).flatMap fun p =>
        ((t.cols.zip p.2).map (fun q => ((p.1, q.1), q.2))).map (fun e => e.1.2)) =
        t.rowIndex.flatMap (fun _ => t.cols) :=
      Eq.trans
        (flatMap_congr_mem (fun p hp => by
          rw [List.map_map]
          exact Eq.trans
            (map_comp_fst_zip (fun c => c) t.cols p.2 (hchunklen p hp))
            (List.map_id t.cols)))
        (zip_flatMap_fst (fun _ => t.cols) t.rowIndex t.values hrowlen)
    rw [hlist]
    exact distinctFirst_flatMap_const hr hCd
  have hgrid : mkGrid (unstackEntries (stack t d) t.rowLevels) t.rowIndex t.cols =
      t.values := by
    apply map_eq_of_zip hLen.symm
    intro p hp
    apply map_eq_of_zip (hRow p.2 (List.of_mem_zip hp).2).symm
    intro q hq
    have hmem : ((p.1, q.1), q.2) ∈ unstackEntries (stack t d) t.rowLevels := by
      rw [hE]
      exact List.mem_flatMap.mpr ⟨p, hp, List.mem_map.mpr ⟨q, hq, rfl⟩⟩
    exact gridCell_of_mem hnodup hmem
  show unstack (stack t d) t.rowLevels = Except.ok t
  rw [unstack, if_pos hnodup, hfst, hsnd, hgrid]
  rfl

/-- Witness for the amended C4 at a concrete 2×2 hierarchical table with a
one-level row index and no missing cells. -/
theorem stack_unstack_round_trip_witness :
    (exH.wf ∧ exH.noMissing ∧ exH.rowIndex ≠ [] ∧ exH.cols ≠ []) ∧
      unstackDefault (stack exH true) = Except.ok exH :=
  ⟨⟨by decide, by decide, by decide, by decide⟩,
    stack_unstack_round_trip exH (by decide) (by decide) (by decide) (by decide) true⟩

/-! ### Claim C10: stack consumes the single column level entirely -/

theorem getD_zero_headD {α : Type} (l : List α) (d : α) : l.getD 0 d = l.headD d := by
  cases l <;> rfl

/-- C10: when the column axis has exactly one level, stack consumes it
entirely — the result is a one-dimensional value sequence (no column
axis remains, by the type of `Stacked`) whose keys are the row tuples
enlarged to `rowLevels + 1` levels; a subsequent unstack therefore
selects among row-index levels only: level 0 uses the outermost labels
of the stacked keys as the new column names, while the default level is
the innermost one. -/
theorem stack_one_dimensional (t : HTable) (d : Bool) (hw : t.wf) :
    (stack t d).levels = t.rowLevels + 1 ∧
    (∀ e ∈ (stack t d).entries, e.1.length = t.rowLevels + 1) ∧
    (∀ s : Stacked, unstackDefault s = unstack s (s.levels - 1)) ∧
    (∀ (s : Stacked) (u : HTable), unstack s 0 = Except.ok u →
      u.cols = distinctFirst (s.entries.map (fun e => e.1.headD ""))) := by
  obtain ⟨_, _, _, hIx, _⟩ := hw
  refine ⟨rfl, ?_, fun s => rfl, ?_⟩
  · intro e he
    obtain ⟨p, hp, hq⟩ := List.mem_flatMap.mp he
    obtain ⟨q, _, heq⟩ := List.mem_filterMap.mp hq
    by_cases hcond : d = true ∧ q.2 = Val.missing
    · rw [if_pos hcond] at heq
      exact Option.noConfusion heq
    · rw [if_neg hcond] at heq
      injection heq with h'
      subst h'
      show (p.1 ++ [q.1]).length = t.rowLevels + 1
      rw [List.length_append, hIx p.1 (List.of_mem_zip hp).1]
      rfl
  · intro s u hok
    rw [unstack] at hok
    by_cases hnd : ((unstackEntries s 0).map (fun e => e.1)).Nodup
    · rw [if_pos hnd] at hok
      have hu := Except.ok.inj hok
      subst hu
      show distinctFirst ((unstackEntries s 0).map (fun e => e.1.2)) = _
      rw [unstackEntries, List.map_map]
      apply congrArg
      apply List.map_congr_left
      intro e _
      exact getD_zero_headD e.1 ""
    · rw [if_neg hnd] at hok
      exact Except.noConfusion hok

/-- Witness for C10 at the concrete 2×2 hierarchical table. -/
theorem stack_one_dimensional_witness :
    exH.wf ∧
    ((stack exH true).levels = exH.rowLevels + 1 ∧
      (∀ e ∈ (stack exH true).entries, e.1.length = exH.rowLevels + 1) ∧
      (∀ s : Stacked, unstackDefault s = unstack s (s.levels - 1)) ∧
      (∀ (s : Stacked) (u : HTable), unstack s 0 = Except.ok u →
        u.cols = distinctFirst (s.entries.map (fun e => e.1.headD "")))) :=
  ⟨by decide, stack_one_dimensional exH true (by decide)⟩

/-! ### Permutation and counting lemmas for value preservation -/

theorem flatMap_nil_fun {α β : Type} (l : List α) :
    l.flatMap (fun _ => ([] : List β)) = [] := by
  induction l <;> simp_all

theorem flatMap_singleton_eq_map {α β : Type} (l : List α) (f : α → β) :
    l.flatMap (fun x => [f x]) = l.map f := by
  induction l <;> simp_all

theorem flatMap_cons_perm {α β : Type} (l : List α) (f : α → β) (g : α → List β) :
    (l.flatMap (fun b => f b :: g b)).Perm (l.map f ++ l.flatMap g) := by
  induction l with
  | nil => exact List.Perm.refl _
  | cons b l ih =>
    rw [List.flatMap_cons, List.map_cons, List.flatMap_cons]
    show (f b :: (g b ++ l.flatMap (fun b => f b :: g b))).Perm _
    apply List.Perm.cons
    refine List.Perm.trans (List.Perm.append_left (g b) ih) ?_
    exact List.perm_append_comm_assoc (g b) (l.map f) (l.flatMap g)

theorem flatMap_map_perm_swap {α β γ : Type} (l₁ : List α) (l₂ : List β)
    (f : α → β → γ) :
    (l₁.flatMap (fun a => l₂.map (fun b => f a b))).Perm
      (l₂.flatMap (fun b => l₁.map (fun a => f a b))) := by
  induction l₁ with
  | nil =>
    rw [List.flatMap_nil]
    show List.Perm [] (l₂.flatMap fun b => [])
    rw [flatMap_nil_fun]
  | cons a l ih =>
    rw [List.flatMap_cons]
    refine List.Perm.trans (List.Perm.append_left _ ih) ?_
    exact (flatMap_cons_perm l₂ (fun b => f a b) (fun b => l.map (fun a => f a b))).symm

theorem flatMap_perm_congr {α β : Type} {l : List α} {f g : α → List β}
    (h : ∀ a ∈ l, (f a).Perm (g a)) : (l.flatMap f).Perm (l.flatMap g) := by
  induction l with
  | nil => exact List.Perm.refl _
  | cons a l ih =>
    rw [List.flatMap_cons, List.flatMap_cons]
    exact List.Perm.append (h a (List.mem_cons_self a l))
      (ih (fun b hb => h b (List.mem_cons_of_mem _ hb)))

theorem nonMissing_idem (l : List Val) : nonMissing (nonMissing l) = nonMissing l := by
  rw [nonMissing, nonMissing, List.filter_filter]
  apply List.filter_congr
  intro v _
  by_cases hv : v = Val.missing <;> simp [hv]

theorem nonMissing_append (l l' : List Val) :
    nonMissing (l ++ l') = nonMissing l ++ nonMissing l' :=
  List.filter_append l l'

theorem flatMap_nonMissing_flatten (ls : List (List Val)) :
    ls.flatMap (fun l => nonMissing l) = nonMissing ls.flatten := by
  induction ls with
  | nil => rfl
  | cons l ls ih => rw [List.flatMap_cons, List.flatten_cons, nonMissing_append, ih]

theorem count_nonMissing_missing (l : List Val) :
    (nonMissing l).count Val.missing = 0 := by
  rw [List.count_eq_zero]
  intro hmem
  have := (List.mem_filter.mp hmem).2
  simp at this

theorem count_nonMissing_of_ne (l : List Val) (v : Val) (hv : ¬ v = Val.missing) :
    (nonMissing l).count v = l.count v := by
  apply List.count_filter
  simpa using hv

theorem countP_restrict {α : Type} (p q : α → Bool) (l : List α)
    (h : ∀ x ∈ l, p x = true → q x = true) :
    List.countP p l = List.countP p (l.filter q) := by
  induction l with
  | nil => rfl
  | cons a l ih =>
    rw [List.filter_cons]
    by_cases hq : q a = true
    · rw [if_pos hq, List.countP_cons, List.countP_cons,
        ih (fun x hx hp => h x (List.mem_cons_of_mem _ hx) hp)]
    · have hp : ¬ p a = true := fun hp => hq (h a (List.mem_cons_self a l) hp)
      rw [if_neg hq, List.countP_cons, if_neg hp, Nat.add_zero,
        ih (fun x hx hp => h x (List.mem_cons_of_mem _ hx) hp)]

theorem gridCell_ne_missing_mem {κ₁ κ₂ : Type} [DecidableEq κ₁] [DecidableEq κ₂]
    {entries : List ((κ₁ × κ₂) × Val)} {k : κ₁ × κ₂}
    (h : ¬ gridCell entries k = Val.missing) : k ∈ entries.map (fun e => e.1) := by
  by_contra hmem
  exact h (gridCell_of_absent (fun e he heq => hmem (heq ▸ List.mem_map_of_mem _ he)))

theorem mkGrid_flatten {κ₁ κ₂ : Type} [DecidableEq κ₁] [DecidableEq κ₂]
    (entries : List ((κ₁ × κ₂) × Val)) (rks : List κ₁) (cks : List κ₂) :
    (mkGrid entries rks cks).flatten =
      (rks.flatMap (fun a => cks.map (fun b => (a, b)))).map (gridCell entries) := by
  rw [mkGrid]
  induction rks with
  | nil => rfl
  | cons a rks ih =>
    rw [List.map_cons, List.flatten_cons, List.flatMap_cons, List.map_append, ih,
      List.map_map]
    rfl

theorem mkGrid_value_perm {κ₁ κ₂ : Type} [DecidableEq κ₁] [DecidableEq κ₂]
    (entries : List ((κ₁ × κ₂) × Val)) (rks : List κ₁) (cks : List κ₂)
    (hnd : (entries.map (fun e => e.1)).Nodup)
    (hrk : rks.Nodup) (hck : cks.Nodup)
    (hsub : ∀ e ∈ entries, e.1.1 ∈ rks ∧ e.1.2 ∈ cks) :
    (nonMissing (mkGrid entries rks cks).flatten).Perm
      (nonMissing (entries.map (fun e => e.2))) := by
  have hPPnd : (rks.flatMap (fun a => cks.map (fun b => (a, b)))).Nodup :=
    nodup_flatMap_prod (f := id) (g := id) (by simpa using hrk) (by simpa using hck)
  have hKsub : ∀ k ∈ entries.map (fun e => e.1),
      k ∈ rks.flatMap (fun a => cks.map (fun b => (a, b))) := by
    intro k hk
    obtain ⟨e, he, rfl⟩ := List.mem_map.mp hk
    exact List.mem_flatMap.mpr ⟨e.1.1, (hsub e he).1,
      List.mem_map.mpr ⟨e.1.2, (hsub e he).2, rfl⟩⟩
  have hfilter_perm :
      ((rks.flatMap (fun a => cks.map (fun b => (a, b)))).filter
        (fun k => decide (k ∈ entries.map (fun e => e.1)))).Perm
        (entries.map (fun e => e.1)) := by
    rw [List.perm_ext_iff_of_nodup (List.Nodup.filter _ hPPnd) hnd]
    intro k
    rw [List.mem_filter]
    constructor
    · intro hk
      simpa using hk.2
    · intro hk
      exact ⟨hKsub k hk, by simpa using hk⟩
  rw [List.perm_iff_count]
  intro v
  by_cases hv : v = Val.missing
  · subst hv
    rw [count_nonMissing_missing, count_nonMissing_missing]
  · rw [count_nonMissing_of_ne _ _ hv, count_nonMissing_of_ne _ _ hv, mkGrid_flatten,
      List.count_eq_countP, List.count_eq_countP, List.countP_map, List.countP_map]
    calc List.countP ((fun x => x == v) ∘ gridCell entries)
          (rks.flatMap (fun a => cks.map (fun b => (a, b))))
        = List.countP ((fun x => x == v) ∘ gridCell entries)
            ((rks.flatMap (fun a => cks.map (fun b => (a, b)))).filter
              (fun k => decide (k ∈ entries.map (fun e => e.1)))) := by
          apply countP_restrict
          intro k _ hp
          have hne : ¬ gridCell entries k = Val.missing := by
            intro hmiss
            rw [Function.comp_apply, hmiss] at hp
            have : Val.missing = v := by simpa using hp
            exact hv this.symm
          simpa using gridCell_ne_missing_mem hne
      _ = List.countP ((fun x => x == v) ∘ gridCell entries)
            (entries.map (fun e => e.1)) :=
          List.Perm.countP_eq _ hfilter_perm
      _ = List.countP (((fun x => x == v) ∘ gridCell entries) ∘ (fun e => e.1))
            entries := List.countP_map _ _ _
      _ = List.countP ((fun x => x == v) ∘ (fun e => e.2)) entries := by
          apply List.countP_congr
          intro e he
          rw [Function.comp_apply, Function.comp_apply, Function.comp_apply,
            gridCell_of_mem hnd he]

theorem zip_flatMap_snd {α β γ : Type} (g : β → List γ) (l₁ : List α) (l₂ : List β)
    (hlen : l₂.length ≤ l₁.length) :
    (l₁.zip l₂).flatMap (fun p => g p.2) = l₂.flatMap g :=
  calc (l₁.zip l₂).flatMap (fun p => g p.2)
      = ((l₁.zip l₂).map Prod.snd).flatMap g :=
        (List.flatMap_map Prod.snd g (l₁.zip l₂)).symm
    _ = l₂.flatMap g := by rw [List.map_snd_zip _ _ hlen]

theorem stack_values_filter (cols : List String) :
    ∀ (key : String × Val → List String) (row : List Val), row.length = cols.length →
      ((cols.zip row).filterMap (fun q =>
          if (true : Bool) = true ∧ q.2 = Val.missing then none
          else some (key q, q.2))).map (fun e => e.2) = nonMissing row := by
  induction cols with
  | nil =>
    intro key row hlen
    cases row with
    | nil => rfl
    | cons v row => simp at hlen
  | cons c cols ih =>
    intro key row hlen
    cases row with
    | nil => simp at hlen
    | cons v row =>
      rw [List.zip_cons_cons, List.filterMap_cons]
      by_cases hv : v = Val.missing
      · rw [if_pos ⟨rfl, hv⟩, ih _ row (by simpa using hlen)]
        rw [nonMissing, nonMissing, List.filter_cons, if_neg (by simp [hv])]
      · rw [if_neg (fun hc => hv hc.2), List.map_cons,
          ih _ row (by simpa using hlen)]
        rw [nonMissing, nonMissing, List.filter_cons, if_pos (by simp [hv])]

/-! ### Claim C9: value preservation -/

/-- C9 counterexample to the literal reading: comparing all non-missing
cells of the output table with the input restricted to the reshaped
columns fails already for melt, whose output also holds the replicated
id cells and the invented variable-name labels.  At the one-row table
with id 1 and value 5 the output cells are 1, "v", 5 while the reshaped
input cells are just 5. -/
theorem value_preservation_counterexample :
    melt exTiny ["i"] ["v"] "variable" "value" =
      Except.ok ⟨["i"] ++ ["variable", "value"], meltRows exTiny ["i"] ["v"]⟩ ∧
    ¬ (nonMissing (meltRows exTiny ["i"] ["v"]).flatten).Perm
        (nonMissing (rowMajorCells exTiny ["v"])) := by
  constructor
  · rfl
  · decide

/-- C9 (amended): for every reshaping operation that succeeds, the
multiset of non-missing cells of the value-carrying part of the output
(the value column for melt, the stub columns for wideToLong, the entry
values for stack, the grid for unstack and pivot) equals the multiset of
non-missing cells of the input restricted to the columns being reshaped
— up to the documented exceptions (stack's default drop of missing
entries; the columns wideToLong drops). -/
theorem value_preservation :
    (∀ (t : Table) (ids vals : List String) (vn wn : String) (u : Table),
      melt t ids vals vn wn = Except.ok u → wn ∉ ids → vn ≠ wn →
      (nonMissing (rowMajorCells u [wn])).Perm (nonMissing (rowMajorCells t vals))) ∧
    (∀ (t : Table) (stubs : List String) (idc jname : String) (u : Table),
      wideToLong t stubs idc jname = Except.ok u →
      (∀ s ∈ stubs, s ≠ idc ∧ s ≠ jname) →
      (nonMissing (rowMajorCells u stubs)).Perm
        (nonMissing (rowMajorCells t
          (stubs.flatMap (fun s => (inferSuffixes t stubs).map (fun suf => s ++ suf)))))) ∧
    (∀ t : HTable, t.values.length = t.rowIndex.length →
      (∀ row ∈ t.values, row.length = t.cols.length) →
      (nonMissing ((stack t true).entries.map (fun e => e.2))).Perm
        (nonMissing t.values.flatten)) ∧
    (∀ (s : Stacked) (L : Nat) (u : HTable), unstack s L = Except.ok u →
      (nonMissing u.values.flatten).Perm (nonMissing (s.entries.map (fun e => e.2)))) ∧
    (∀ (t : Table) (ic cc vc : String) (p : PTable), pivot t ic cc vc = Except.ok p →
      (nonMissing p.values.flatten).Perm (nonMissing (rowMajorCells t [vc]))) := by
  refine ⟨?_, ?_, ?_, ?_, ?_⟩
  · intro t ids vals vn wn u hok hwn hvw
    rw [melt] at hok
    by_cases hsub : ∀ c ∈ ids ++ vals, c ∈ t.cols
    · rw [if_pos hsub] at hok
      have hu := Except.ok.inj hok
      subst hu
      have hidx : firstIdx (ids ++ [vn, wn]) wn = some (1 + ids.length) := by
        rw [firstIdx_append_of_not_mem _ hwn, firstIdx, if_neg hvw, firstIdx,
          if_pos rfl]
        rfl
      have hcellw : ∀ (r : List Val) (c : String),
          cellAt ⟨ids ++ [vn, wn], meltRows t ids vals⟩
            (ids.map (fun i => cellAt t r i) ++ [Val.str c, cellAt t r c]) wn =
            cellAt t r c := by
        intro r c
        rw [cellAt_eq_of_firstIdx hidx]
        rw [Nat.add_comm 1 ids.length,
          show ids.length = (ids.map (fun i => cellAt t r i)).length from
            (List.length_map _ _).symm,
          getD_append_right_len]
        rfl
      have hrml : rowMajorCells ⟨ids ++ [vn, wn], meltRows t ids vals⟩ [wn] =
          vals.flatMap (fun c => t.rows.map (fun r => cellAt t r c)) := by
        rw [rowMajorCells]
        show (meltRows t ids vals).flatMap _ = _
        simp only [List.map_cons, List.map_nil]
        rw [flatMap_singleton_eq_map, meltRows, List.map_flatMap]
        apply flatMap_congr_mem
        intro c _
        rw [List.map_map]
        apply List.map_congr_left
        intro r _
        exact hcellw r c
      rw [hrml, rowMajorCells]
      exact List.Perm.filter _ (flatMap_map_perm_swap vals t.rows (fun c r => cellAt t r c))
    · rw [if_neg hsub] at hok
      exact Except.noConfusion hok
  · intro t stubs idc jname u hok hstubs
    rw [wideToLong] at hok
    by_cases hid : idc ∈ t.cols
    · rw [if_pos hid] at hok
      by_cases hmatch : ∀ s ∈ stubs, ∀ suf ∈ inferSuffixes t stubs, (s ++ suf) ∈ t.cols
      · rw [if_pos hmatch] at hok
        have hu := Except.ok.inj hok
        subst hu
        have hcells : ∀ (r : List Val) (suf : String),
            stubs.map (fun s => cellAt ⟨idc :: jname :: stubs, w2lRows t stubs idc⟩
              (cellAt t r idc :: Val.str suf ::
                stubs.map (fun s' => cellAt t r (s' ++ suf))) s) =
            stubs.map (fun s => cellAt t r (s ++ suf)) := by
          intro r suf
          apply List.map_congr_left
          intro s hs
          obtain ⟨k, hk⟩ := firstIdx_of_mem hs
          obtain ⟨hklt, hkget⟩ := firstIdx_spec hk
          have hidx : firstIdx (idc :: jname :: stubs) s = some (k + 1 + 1) := by
            rw [firstIdx, if_neg (fun e => (hstubs s hs).1 e.symm), firstIdx,
              if_neg (fun e => (hstubs s hs).2 e.symm), hk]
            rfl
          rw [cellAt_eq_of_firstIdx hidx, List.getD_cons_succ, List.getD_cons_succ,
            getD_map_of_lt _ _ _ _ hklt, hkget]
        have hrml : rowMajorCells ⟨idc :: jname :: stubs, w2lRows t stubs idc⟩ stubs =
            t.rows.flatMap (fun r => (inferSuffixes t stubs).flatMap (fun suf =>
              stubs.map (fun s => cellAt t r (s ++ suf)))) := by
          rw [rowMajorCells]
          show (w2lRows t stubs idc).flatMap _ = _
          rw [w2lRows, List.flatMap_assoc]
          apply flatMap_congr_mem
          intro r _
          rw [List.flatMap_map]
          apply flatMap_congr_mem
          intro suf _
          exact hcells r suf
        have hrhs : rowMajorCells t (stubs.flatMap (fun s =>
            (inferSuffixes t stubs).map (fun suf => s ++ suf))) =
            t.rows.flatMap (fun r => stubs.flatMap (fun s =>
              (inferSuffixes t stubs).map (fun suf => cellAt t r (s ++ suf)))) := by
          rw [rowMajorCells]
          apply flatMap_congr_mem
          intro r _
          rw [List.map_flatMap]
          apply flatMap_congr_mem
          intro s _
          rw [List.map_map]
          rfl
        rw [hrml, hrhs]
        apply List.Perm.filter
        apply flatMap_perm_congr
        intro r _
        exact flatMap_map_perm_swap (inferSuffixes t stubs) stubs
          (fun suf s => cellAt t r (s ++ suf))
      · rw [if_neg hmatch] at hok
        exact Except.noConfusion hok
    · rw [if_neg hid] at hok
      exact Except.noConfusion hok
  · intro t hlen hrows
    have hentries : (stack t true).entries.map (fun e => e.2) =
        t.values.flatMap (fun row => nonMissing row) := by
      show (List.flatMap _ _).map _ = _
      rw [List.map_flatMap]
      refine Eq.trans (flatMap_congr_mem (fun p hp => ?_))
        (zip_flatMap_snd (fun row => nonMissing row) t.rowIndex t.values
          (Nat.le_of_eq hlen))
      exact stack_values_filter t.cols (fun q => p.1 ++ [q.1]) p.2
        (hrows p.2 (List.of_mem_zip hp).2)
    rw [hentries, flatMap_nonMissing_flatten, nonMissing_idem]
  · intro s L u hok
    rw [unstack] at hok
    by_cases hnd : ((unstackEntries s L).map (fun e => e.1)).Nodup
    · rw [if_pos hnd] at hok
      have hu := Except.ok.inj hok
      subst hu
      refine List.Perm.trans (mkGrid_value_perm _ _ _ hnd (nodup_distinctFirst _)
        (nodup_distinctFirst _) ?_) ?_
      · intro e he
        exact ⟨mem_distinctFirst.mpr (List.mem_map_of_mem (fun e => e.1.1) he),
          mem_distinctFirst.mpr (List.mem_map_of_mem (fun e => e.1.2) he)⟩
      · rw [unstackEntries, List.map_map]
        exact List.Perm.refl _
    · rw [if_neg hnd] at hok
      exact Except.noConfusion hok
  · intro t ic cc vc p hok
    rw [pivot] at hok
    by_cases hc : ic ∈ t.cols ∧ cc ∈ t.cols ∧ vc ∈ t.cols
    · rw [if_pos hc] at hok
      by_cases hnd : ((pivotEntries t ic cc vc).map (fun e => e.1)).Nodup
      · rw [if_pos hnd] at hok
        have hp := Except.ok.inj hok
        subst hp
        refine List.Perm.trans (mkGrid_value_perm _ _ _ hnd (nodup_distinctFirst _)
          (nodup_distinctFirst _) ?_) ?_
        · intro e he
          exact ⟨mem_distinctFirst.mpr (List.mem_map_of_mem (fun e => e.1.1) he),
            mem_distinctFirst.mpr (List.mem_map_of_mem (fun e => e.1.2) he)⟩
        · have hvals : (pivotEntries t ic cc vc).map (fun e => e.2) =
              rowMajorCells t [vc] := by
            rw [pivotEntries, List.map_map, rowMajorCells]
            simp only [List.map_cons, List.map_nil]
            rw [flatMap_singleton_eq_map]
            rfl
          rw [hvals]
      · rw [if_neg hnd] at hok
        exact Except.noConfusion hok
    · rw [if_neg hc] at hok
      exact Except.noConfusion hok

/-- Witness for the amended C9, instantiating all five parts at concrete
inputs: melt and pivot on the wide/sparse example tables, wide-to-long
on the stub example, and stack/unstack on the 2×2 hierarchical table. -/
theorem value_preservation_witness :
    ((melt exWide ["id"] ["h", "w"] "variable" "value" =
        Except.ok ⟨["id"] ++ ["variable", "value"], meltRows exWide ["id"] ["h", "w"]⟩ ∧
      "value" ∉ (["id"] : List String) ∧ ("variable" : String) ≠ "value") ∧
      (wideToLong exW2L ["A", "B"] "id" "year" =
        Except.ok ⟨"id" :: "year" :: ["A", "B"], w2lRows exW2L ["A", "B"] "id"⟩ ∧
      (∀ s ∈ (["A", "B"] : List String), s ≠ "id" ∧ s ≠ "year")) ∧
      (exH.values.length = exH.rowIndex.length ∧
        ∀ row ∈ exH.values, row.length = exH.cols.length) ∧
      (unstack (stack exH true) 1 = Except.ok exH) ∧
      (pivot exSparse "index" "col" "val" =
        Except.ok ⟨[Val.int 1, Val.int 2], [Val.str "A", Val.str "B"],
          [[Val.int 5, Val.missing], [Val.missing, Val.int 6]]⟩)) ∧
    ((nonMissing (rowMajorCells
        ⟨["id"] ++ ["variable", "value"], meltRows exWide ["id"] ["h", "w"]⟩
        ["value"])).Perm (nonMissing (rowMajorCells exWide ["h", "w"])) ∧
      (nonMissing (rowMajorCells
        ⟨"id" :: "year" :: ["A", "B"], w2lRows exW2L ["A", "B"] "id"⟩
        ["A", "B"])).Perm (nonMissing (rowMajorCells exW2L
          ((["A", "B"] : List String).flatMap (fun s =>
            (inferSuffixes exW2L ["A", "B"]).map (fun suf => s ++ suf))))) ∧
      (nonMissing ((stack exH true).entries.map (fun e => e.2))).Perm
        (nonMissing exH.values.flatten) ∧
      (nonMissing exH.values.flatten).Perm
        (nonMissing ((stack exH true).entries.map (fun e => e.2))) ∧
      (nonMissing (([[Val.int 5, Val.missing], [Val.missing, Val.int 6]] :
          List (List Val)).flatten)).Perm
        (nonMissing (rowMajorCells exSparse ["val"]))) :=
  ⟨⟨⟨rfl, by decide, by decide⟩, ⟨rfl, by decide⟩, ⟨by decide, by decide⟩, rfl, rfl⟩,
    ⟨value_preservation.1 exWide ["id"] ["h", "w"] "variable" "value" _ rfl (by decide)
        (by decide),
      value_preservation.2.1 exW2L ["A", "B"] "id" "year" _ rfl (by decide),
      value_preservation.2.2.1 exH (by decide) (by decide),
      value_preservation.2.2.2.1 (stack exH true) 1 exH rfl,
      value_preservation.2.2.2.2 exSparse "index" "col" "val" _ rfl⟩⟩

end TidyData
